import Mathlib

/-!
A shallow embedding, in Lean, of the parts of a Mercurial source tree that
its design document describes: the advisory file lock (`mercurial/lock.py`)
and the interactive history-editing extension (`hgext/histedit.py`), with
theorems checking the document's statements against the embedded code.

Conventions used throughout:
* Python strings that the code inspects character by character are embedded
  as `List Char`; opaque identifiers (commit nodes, pids, revision numbers)
  are embedded as `Nat`.
* Python `set` values are embedded as `Finset Nat`; iteration order over a
  set, which Python leaves unspecified, is fixed deterministically by
  sorting (ascending `≤` on the `Nat` identifiers).
* Unbounded `while` loops are embedded with an explicit fuel argument large
  enough for every terminating run of the source.
* Fallible code returns `Option` or a small error type instead of raising.
-/

namespace Spec2Proof

/-! ## mercurial/lock.py -/

/-- The contents of a lock file.  `lock._testlock` (lock.py lines 123-135)
parses the recorded owner with `locker.split(":", 1)` followed by
`int(pid)`; `hostpid` stands for a string that parses as `host:pid` with a
numeric pid (the new-style locks `lock.__init__` writes), `raw` for any
other contents (old-style locks, for which the parse raises `ValueError`
and the locker is treated as opaque). -/
inductive LockerVal
  | hostpid (host : String) (pid : Nat)
  | raw (s : String)
deriving DecidableEq

/-- The filesystem as the lock code sees it: named entries with contents.
`vfs.makelock` creates an entry atomically, failing with `EEXIST` when the
name is taken; `vfs.readlock` reads it; `vfs.unlink` removes it. -/
abbrev LockFS := List (String × LockerVal)

/-- `vfs.readlock` / `lock._readlock`: the contents of entry `f`, or `none`
when no such entry exists (`ENOENT`). -/
def fslookup (fs : LockFS) (f : String) : Option LockerVal :=
  (fs.find? (fun e => e.1 == f)).map Prod.snd

/-- `vfs.makelock`: create entry `f` with contents `v` (callers check for
collision first). -/
def fsmake (fs : LockFS) (f : String) (v : LockerVal) : LockFS :=
  (f, v) :: fs

/-- `vfs.unlink`: remove entry `f`. -/
def fsunlink (fs : LockFS) (f : String) : LockFS :=
  fs.filter (fun e => !(e.1 == f))

/-- The per-process environment of the lock code: the memoized
`socket.gethostname()` result cached in `lock._host`, and `util.testpid`,
the probe for whether a pid is alive on this host. -/
structure LockEnv where
  host : String
  testpid : Nat → Bool

/-- Result of one `lock._trylock` call: `ok held` when the call returned
normally with `self.held` equal to 1 (`held = true`) or still 0 because the
five retries were exhausted (`held = false`); `heldby locker` when it
raised `error.LockHeld` with that locker identity. -/
inductive TryRes
  | ok (held : Bool)
  | heldby (locker : LockerVal)
deriving DecidableEq

mutual

/-- The retry loop of `lock._trylock` (lock.py lines 86-108) for a lock on
file `f` acquired by process `mypid`: up to `retry` (initially 5) attempts;
each attempt calls `vfs.makelock` and on `EEXIST` consults `testlockF`; a
non-`None` locker becomes `error.LockHeld(EAGAIN, ..., locker)`, a `None`
locker (stale lock broken) retries.  `fuel` bounds the nesting depth of
break-locks (`f.break`, `f.break.break`, ...), which the source leaves
unbounded. -/
def trylockloop (env : LockEnv) (mypid : Nat) (f : String) :
    Nat → LockFS → Nat → TryRes × LockFS
  | 0, fs, _ => (TryRes.ok false, fs)
  | retry + 1, fs, fuel =>
    match fslookup fs f with
    | none => (TryRes.ok true, fsmake fs f (LockerVal.hostpid env.host mypid))
    | some _ =>
      match testlockF env mypid f fs fuel with
      | (some locker, _) => (TryRes.heldby locker, fs)
      | (none, fs') => trylockloop env mypid f retry fs' fuel
termination_by retry _ fuel => (fuel, 1, retry)

/-- `lock.testlock` / `lock._testlock` (lock.py lines 110-159): read the
lock entry; `None` when absent; an owner on another host, an alive local
owner, or an unparsable owner is returned as-is (the caller raises
`LockHeld` with it); a dead local owner is broken: acquire the secondary
meta-lock `f ++ ".break"` with timeout 0 (a single `_trylock` attempt,
any `LockHeld` becoming `LockHeld(ETIMEDOUT)`), unlink `f`, release the
meta-lock, and return `None`.  If acquiring the meta-lock raises
`error.LockError` the locker is returned unbroken.  At `fuel = 0` the
nested acquisition is treated as having raised. -/
def testlockF (env : LockEnv) (mypid : Nat) (f : String) (fs : LockFS)
    (fuel : Nat) : Option LockerVal × LockFS :=
  match fslookup fs f with
  | none => (none, fs)
  | some (LockerVal.raw s) => (some (LockerVal.raw s), fs)
  | some (LockerVal.hostpid h p) =>
    if h ≠ env.host then (some (LockerVal.hostpid h p), fs)
    else if env.testpid p then (some (LockerVal.hostpid h p), fs)
    else
      match fuel with
      | 0 => (some (LockerVal.hostpid h p), fs)
      | fuel' + 1 =>
        match trylockloop env mypid (f ++ ".break") 5 fs fuel' with
        | (TryRes.heldby _, _) => (some (LockerVal.hostpid h p), fs)
        | (TryRes.ok heldb, fs') =>
          let fs2 := fsunlink fs' f
          let fs3 := if heldb then fsunlink fs2 (f ++ ".break") else fs2
          (none, fs3)
termination_by (fuel, 0, 0)

end

/-- Outcome of the acquisition loop `lock.lock`:  `acquired delay` is the
normal return value `self.timeout - timeout`; `timedout locker` is the
raised `error.LockHeld(errno.ETIMEDOUT, ..., locker)`; `running` means the
loop was still retrying when the observation bound (fuel) ran out. -/
inductive LockOutcome
  | acquired (delay : Int)
  | timedout (locker : LockerVal)
  | running
deriving DecidableEq

/-- The `while True` loop of `lock.lock` (lock.py lines 71-84).  `tries k`
is the outcome of the `k`-th `self._trylock()` call: `none` when it
returned normally, `some locker` when it raised `error.LockHeld` with that
locker.  `t` is the local variable `timeout` (initially `self.timeout`),
`slept` counts the `time.sleep(1)` calls so far, and the second component
of the result reports the final count.  `fuel` bounds the number of
iterations observed. -/
def lockloop (tries : Nat → Option LockerVal) (timeout : Int) :
    Nat → Int → Nat → Nat → LockOutcome × Nat
  | 0, _, _, slept => (LockOutcome.running, slept)
  | fuel + 1, t, k, slept =>
    match tries k with
    | none => (LockOutcome.acquired (timeout - t), slept)
    | some locker =>
      if t ≠ 0 then
        lockloop tries timeout fuel (if t > 0 then t - 1 else t) (k + 1) (slept + 1)
      else (LockOutcome.timedout locker, slept)

/-- `lock.lock` entry point: run the loop from `timeout = self.timeout`,
first attempt, no sleeps yet. -/
def locklock (tries : Nat → Option LockerVal) (timeout : Int) (fuel : Nat) :
    LockOutcome × Nat :=
  lockloop tries timeout fuel timeout 0 0

/-- The observable effects of one `lock.release` call, in program order:
the registered `releasefn` callback, the `vfs.unlink` of the lock entry,
and each registered post-release callback. -/
inductive RelEvent
  | releasefn
  | unlink
  | postrelease (i : Nat)
deriving DecidableEq

/-- The fields of a `lock` handle that `lock.release` reads or writes:
`held` (the recursive acquisition count), `pid` (the `os.getpid()` recorded
in `__init__`), whether a `releasefn` callback is registered, and how many
`postrelease` callbacks are registered. -/
structure LockHandle where
  held : Nat
  pid : Nat
  hasreleasefn : Bool
  npostrelease : Nat
deriving DecidableEq

/-- `lock.release` (lock.py lines 191-212), called from process `curpid`
(`os.getpid()`): with `held > 1` just decrement; with `held == 1` zero the
count and, only when `curpid` is the recorded pid, run `releasefn`, unlink
the entry (ignoring `OSError`) and run the post-release callbacks; with
`held == 0` do nothing.  Returns the updated handle and the effects
performed. -/
def lockrelease (l : LockHandle) (curpid : Nat) : LockHandle × List RelEvent :=
  if 1 < l.held then ({ l with held := l.held - 1 }, [])
  else if l.held = 1 then
    let l' : LockHandle := { l with held := 0 }
    if curpid ≠ l.pid then (l', [])
    else (l', (if l.hasreleasefn then [RelEvent.releasefn] else []) ++
              [RelEvent.unlink] ++
              (List.range l.npostrelease).map RelEvent.postrelease)
  else (l, [])

/-! ## hgext/histedit.py: plan parsing and verification -/

/-- Python `str.strip()` whitespace: space, tab, newline, carriage return,
vertical tab, form feed. -/
def pyIsSpace (c : Char) : Bool :=
  c == ' ' || c == '\t' || c == '\n' || c == '\r' || c == '\x0b' || c == '\x0c'

/-- Python `s.strip()`: drop whitespace from both ends. -/
def pyStrip (s : List Char) : List Char :=
  ((s.dropWhile pyIsSpace).reverse.dropWhile pyIsSpace).reverse

/-- Python `s.split(sep, 1)` for a one-character separator that occurs in
`s`: the part before the first occurrence and the part after it.  (When
`sep` does not occur the pair `(s, [])` comes back; the callers below only
split after checking that the separator occurs.) -/
def pySplitOnce (sep : Char) : List Char → List Char × List Char
  | [] => ([], [])
  | c :: rest =>
    if c = sep then ([], rest)
    else
      let p := pySplitOnce sep rest
      (c :: p.1, p.2)

/-- Python `s.splitlines()` for line feeds: the list of lines, with no
trailing empty line for a trailing newline. -/
def pySplitlinesGo (cur : List Char) : List Char → List (List Char)
  | [] => if cur = [] then [] else [cur.reverse]
  | c :: rest =>
    if c = '\n' then cur.reverse :: pySplitlinesGo [] rest
    else pySplitlinesGo (c :: cur) rest

/-- Python `s.splitlines()` (line feeds only; the plan files at issue use
`'\n'`). -/
def pySplitlines (s : List Char) : List (List Char) :=
  pySplitlinesGo [] s

/-- hgext/histedit.py lines 479-480: the rule lines of a plan text are the
stripped lines that are non-empty and do not start with `'#'`:
`[l for l in (r.strip() for r in rules.splitlines()) if l and not l[0] == '#']`. -/
def preprocessrules (s : List Char) : List (List Char) :=
  ((pySplitlines s).map pyStrip).filter
    (fun l => decide (l ≠ [] ∧ l.head? ≠ some '#'))

/-- hgext/histedit.py lines 368-378: the keys of `actiontable`. -/
def actionkeys : List (List Char) :=
  ["p", "pick", "e", "edit", "f", "fold", "d", "drop", "m", "mess"].map
    String.toList

/-- The repository's changeset lookup `repo[ha]`, restricted to what
`verifyrules` needs: a table from identifier strings to changelog nodes;
`none` models `error.RepoError` (unknown changeset). -/
def repolookup (repo : List (List Char × Nat)) (ha : List Char) : Option Nat :=
  (repo.find? (fun e => decide (e.1 = ha))).map Prod.snd

/-- hgext/histedit.py line 642: `action, rest = r.split(' ', 1)`, the
action part. -/
def ruleaction (r : List Char) : List Char :=
  (pySplitOnce ' ' r).1

/-- hgext/histedit.py lines 642-646: the changeset identifier the code
takes from rule line `r`.  With `rest` the part after the first space:
when `rest.strip()` still contains a space, `ha` is the part of `rest`
before its first space; otherwise `ha = r.strip()` — the whole stripped
line, action included (source line 646). -/
def rulehash (r : List Char) : List Char :=
  let rest := (pySplitOnce ' ' r).2
  if (pyStrip rest).contains ' ' then (pySplitOnce ' ' rest).1
  else pyStrip r

/-- hgext/histedit.py lines 639-655, the per-rule body of `verifyrules`:
abort (`none`) on a line without a space (malformed), an identifier that
resolves to no changeset (`error.RepoError`, unknown changeset), a
changeset outside `ctxs`, or an unknown action; otherwise the parsed pair
`[action, ha]`. -/
def verifyrule (repo : List (List Char × Nat)) (ctxs : List Nat)
    (r : List Char) : Option (List Char × List Char) :=
  if r.contains ' ' = false then none
  else
    match repolookup repo (rulehash r) with
    | none => none
    | some n =>
      if ctxs.contains n = false then none
      else if actionkeys.contains (ruleaction r) = false then none
      else some (ruleaction r, rulehash r)

/-- The `for r in rules` loop of `verifyrules`, accumulating `parsed`. -/
def verifyrulesgo (repo : List (List Char × Nat)) (ctxs : List Nat) :
    List (List Char) → Option (List (List Char × List Char))
  | [] => some []
  | r :: rs =>
    match verifyrule repo ctxs r with
    | none => none
    | some p =>
      match verifyrulesgo repo ctxs rs with
      | none => none
      | some ps => some (p :: ps)

/-- hgext/histedit.py lines 630-656 (`verifyrules`): abort (`none`) when
the number of rules differs from the number of changesets in the edit
range, or when any rule aborts; otherwise the parsed plan. -/
def verifyrules (rules : List (List Char)) (repo : List (List Char × Nat))
    (ctxs : List Nat) : Option (List (List Char × List Char)) :=
  if rules.length ≠ ctxs.length then none
  else verifyrulesgo repo ctxs rules

/-! ## hgext/histedit.py: fold finalization -/

/-- A changeset as `finishfold` and `collapse` read it: its node, author,
description, date (`(unixtime, tzoffset)`, compared as Python compares
tuples) and extra-metadata map. -/
structure Ctx where
  nodeid : Nat
  user : List Char
  desc : List Char
  date : Nat × Int
  extra : List (List Char × List Char)
deriving DecidableEq

/-- Python `max(a, b)` on two date tuples: `b` when `a < b`
lexicographically, else `a` (ties keep the first argument). -/
def pymaxdate (a b : Nat × Int) : Nat × Int :=
  if a.1 < b.1 ∨ (a.1 = b.1 ∧ a.2 < b.2) then b else a

/-- Python `sep.join(parts)`. -/
def pyjoin (sep : List Char) : List (List Char) → List Char
  | [] => []
  | [x] => x
  | x :: xs => x ++ sep ++ pyjoin sep xs

/-- The commit options `finishfold` assembles (hgext/histedit.py lines
320-334): `user`, `message`, `date` of the combined commit. -/
structure CommitOpts where
  user : List Char
  message : List Char
  date : Nat × Int
deriving DecidableEq

/-- hgext/histedit.py lines 320-334: username (`ctx.user()` when it equals
`oldctx.user()`, else `ui.username()`), message
(`'\n***\n'.join([ctx.description()] + [repo[r].description() for r in
internalchanges] + [oldctx.description()]) + '\n'`) and date
(`max(ctx.date(), oldctx.date())`). -/
def finishfoldopts (uiusername : List Char) (ctx oldctx : Ctx)
    (internaldescs : List (List Char)) : CommitOpts :=
  { user := if ctx.user = oldctx.user then ctx.user else uiusername
    message :=
      pyjoin ('\n' :: '*' :: '*' :: '*' :: '\n' :: [])
        ([ctx.desc] ++ internaldescs ++ [oldctx.desc]) ++ ['\n']
    date := pymaxdate ctx.date oldctx.date }

/-- The data `collapse` (hgext/histedit.py lines 252-268) feeds to
`memctx` for the combined commit: message from `commitopts['message']`
when non-empty else `first.description()`, user and date from the options,
and `extra = first.extra()` — at the `finishfold` call site `first = ctx`. -/
structure CommitData where
  message : List Char
  user : List Char
  date : Nat × Int
  extra : List (List Char × List Char)
deriving DecidableEq

/-- hgext/histedit.py lines 252-268: the commit-data selection inside
`collapse`. -/
def collapsedata (first : Ctx) (opts : CommitOpts) : CommitData :=
  { message := if opts.message ≠ [] then opts.message else first.desc
    user := opts.user
    date := opts.date
    extra := first.extra }

/-- hgext/histedit.py lines 316-345 (`finishfold`): the working-copy
updates, the `collapse` call and the commit itself are external; the
result of `collapse` enters as `collapsed` (`none` when the combined
commit would be empty).  Returns the new parent node and the emitted
replacement entries: on `none`, `(ctx, [])`; on `some n`,
`[(oldctx, (newnode,)), (ctx, (n,)), (newnode, (n,))]` plus one
`(ich, (n,))` per internal change. -/
def finishfold (ctx oldctx : Ctx) (newnode : Nat)
    (internalchanges : List Nat) (collapsed : Option Nat) :
    Nat × List (Nat × List Nat) :=
  match collapsed with
  | none => (ctx.nodeid, [])
  | some n =>
    (n, [(oldctx.nodeid, [newnode]), (ctx.nodeid, [n]), (newnode, [n])] ++
        internalchanges.map (fun ich => (ich, [n])))

/-! ## hgext/histedit.py: range selection -/

/-- The two aborts `between` can raise. -/
inductive BetweenErr
  | orphannodes
  | immutable
deriving DecidableEq

/-- hgext/histedit.py lines 591-602 (`between`): the revset
`repo.set('%n::%n', old, new)` enters as the computed list `ctxs` (sorted,
root first) and the orphan revset `repo.revs('(%ld::) - (%ld + hidden())',
...)` as the flag `orphans` (whether it is non-empty); `phase c = 0` is a
public (immutable) changeset.  Only when `ctxs` is non-empty **and `keep`
is false** does the code run the orphan check and then the phase check on
the root; otherwise the list is returned unchecked. -/
def betweenfn (ctxs : List Nat) (keep : Bool) (orphans : Bool)
    (phase : Nat → Nat) : Except BetweenErr (List Nat) :=
  if ctxs ≠ [] ∧ keep = false then
    if orphans then Except.error BetweenErr.orphannodes
    else if phase ctxs.headI = 0 then Except.error BetweenErr.immutable
    else Except.ok ctxs
  else Except.ok ctxs

/-! ## hgext/histedit.py: replacement-graph reduction

`processreplacement` (lines 658-715) reduces the append-only replacement
list to the final precursor-to-successors mapping.  Python `set` values
become `Finset Nat`; where Python iterates a `set` or sorts with the
changelog's `rev`/`nodemap` key, the embedding fixes the unspecified
iteration order and the unspecified tie order deterministically (ascending
node for iteration, `(key, node)` lexicographically for sorts). -/

/-- Lines 664-672: `allsuccs`, the union of all successor tuples. -/
def allsuccs (repl : List (Nat × List Nat)) : Finset Nat :=
  ((repl.map Prod.snd).flatten).toFinset

/-- Lines 664-672: `replaced`, the set of precursors. -/
def replacedset (repl : List (Nat × List Nat)) : Finset Nat :=
  (repl.map Prod.fst).toFinset

/-- Lines 669-672: `fullmapping`, accumulated with
`fullmapping.setdefault(rep[0], set()).update(rep[1])` — per precursor the
union of its successor tuples (and the empty set off `replaced`). -/
def fullmapping (repl : List (Nat × List Nat)) (x : Nat) : Finset Nat :=
  (((repl.filter (fun e => e.1 == x)).map Prod.snd).flatten).toFinset

/-- Line 673: `new = allsuccs - replaced`. -/
def newset (repl : List (Nat × List Nat)) : Finset Nat :=
  allsuccs repl \ replacedset repl

/-- Line 674: `tmpnodes = allsuccs & replaced`. -/
def tmpnodesset (repl : List (Nat × List Nat)) : Finset Nat :=
  allsuccs repl ∩ replacedset repl

/-- The mutable state of the reduction loop (lines 678-694): the evolving
`fullmapping` (whose entries `final` aliases), the pending set `toproceed`
and the keys of `final`. -/
structure RedState where
  fm : Nat → Finset Nat
  tp : Finset Nat
  fk : Finset Nat

/-- The inner `for s in list(succs)` loop (lines 683-691) over a snapshot
of `succs`, with `acc` the evolving set: a successor still in `toproceed`
breaks out (`false`: the for-else suite is skipped and `x` stays pending,
the partially substituted set kept); a finalized successor is replaced by
its closure (`succs.remove(s); succs.update(final[s])`); otherwise it is
left alone.  `true` means the loop ran to completion. -/
def procsuccs (fm : Nat → Finset Nat) (tp fk : Finset Nat) :
    List Nat → Finset Nat → Finset Nat × Bool
  | [], acc => (acc, true)
  | s :: rest, acc =>
    if s ∈ tp then (acc, false)
    else if s ∈ fk then procsuccs fm tp fk rest ((acc.erase s) ∪ fm s)
    else procsuccs fm tp fk rest acc

/-- The body of the `for x in list(toproceed)` loop for one pending node
`x` (lines 682-694): run the inner loop on `fullmapping[x]`; keep the
(possibly partially substituted) set; when the inner loop completed, move
`x` from `toproceed` to the keys of `final` (`final[x] = succs` aliases
the updated `fullmapping[x]`, so the state keeps a single map). -/
def redstep (st : RedState) (x : Nat) : RedState :=
  let r := procsuccs st.fm st.tp st.fk (Finset.sort (· ≤ ·) (st.fm x)) (st.fm x)
  { fm := Function.update st.fm x r.1
    tp := if r.2 then st.tp.erase x else st.tp
    fk := if r.2 then insert x st.fk else st.fk }

/-- One `for x in list(toproceed)` pass (lines 681-694) over a snapshot of
`toproceed`. -/
def onepass : List Nat → RedState → RedState
  | [], st => st
  | x :: rest, st => onepass rest (redstep st x)

/-- The `while toproceed` loop (lines 680-694), with fuel: each iteration
snapshots `toproceed` and runs one pass.  (On the cyclic inputs the source
never receives, the Python loop would not terminate; the fuel bound is
immaterial for the acyclic inputs the theorems below quantify over.) -/
def redloop : Nat → RedState → RedState
  | 0, st => st
  | fuel + 1, st =>
    if st.tp = ∅ then st
    else redloop fuel (onepass (Finset.sort (· ≤ ·) st.tp) st)

/-- The state after the reduction loop, started from `fullmapping`,
`toproceed = set(fullmapping)` and an empty `final` (lines 678-680), with
enough fuel for every acyclic input. -/
def redstate (repl : List (Nat × List Nat)) : RedState :=
  redloop ((replacedset repl).card + 1)
    { fm := fullmapping repl, tp := replacedset repl, fk := ∅ }

/-- Lines 695-697: `for n in tmpnodes: del final[n]` — the keys of the
reduced mapping. -/
def finalkeys (repl : List (Nat × List Nat)) : Finset Nat :=
  replacedset repl \ tmpnodesset repl

/-- The sort key the embedding uses for Python's
`sorted(..., key=repo.changelog.rev)` / `key=nm.get` with `nm` the
node-to-revision map: ascending revision, ties (impossible in a real
changelog) broken by node. -/
def nmrel (nm : Nat → Nat) (a b : Nat) : Prop :=
  nm a < nm b ∨ (nm a = nm b ∧ a ≤ b)

instance (nm : Nat → Nat) : DecidableRel (nmrel nm) := fun a b => by
  unfold nmrel; exact inferInstance

instance (nm : Nat → Nat) : IsTrans Nat (nmrel nm) where
  trans a b c hab hbc := by
    rcases hab with h | ⟨h1, h2⟩ <;> rcases hbc with h' | ⟨h1', h2'⟩
    · exact Or.inl (h.trans h')
    · exact Or.inl (h1' ▸ h)
    · exact Or.inl (h1 ▸ h')
    · exact Or.inr ⟨h1.trans h1', h2.trans h2'⟩

instance (nm : Nat → Nat) : IsAntisymm Nat (nmrel nm) where
  antisymm a b hab hba := by
    rcases hab with h | ⟨h1, h2⟩ <;> rcases hba with h' | ⟨h1', h2'⟩
    · exact absurd h' (Nat.lt_asymm h)
    · exact absurd h (h1' ▸ lt_irrefl _)
    · exact absurd h' (h1 ▸ lt_irrefl _)
    · exact Nat.le_antisymm h2 h2'

instance (nm : Nat → Nat) : IsTotal Nat (nmrel nm) where
  total a b := by
    rcases Nat.lt_trichotomy (nm a) (nm b) with h | h | h
    · exact Or.inl (Or.inl h)
    · rcases Nat.le_total a b with h' | h'
      · exact Or.inl (Or.inr ⟨h, h'⟩)
      · exact Or.inr (Or.inr ⟨h.symm, h'⟩)
    · exact Or.inr (Or.inl h)

/-- A Python `sorted(s, key=nm.get)` of a set: the embedding linearizes
the set and sorts by `nmrel`. -/
def valsort (nm : Nat → Nat) (s : Finset Nat) : List Nat :=
  List.insertionSort (nmrel nm) (Finset.sort (· ≤ ·) s)

/-- Lines 699-702: turn `final` into an association list, each successor
set sorted topologically by the nodemap (`final[prec] = sorted(succs,
key=nm.get)`); the keys are listed in the embedding's deterministic
ascending order. -/
def finallist (nm : Nat → Nat) (repl : List (Nat × List Nat)) :
    List (Nat × List Nat) :=
  (Finset.sort (· ≤ ·) (finalkeys repl)).map
    (fun k => (k, valsort nm ((redstate repl).fm k)))

/-- Lines 704-713: `newtopmost` — the highest-revision element of `new`
when `new` is non-empty (`sorted(new, key=repo.changelog.rev)[-1]`);
`None` when additionally `final` is empty; otherwise the first parent of
the lowest-revision key of `final`
(`repo[sorted(final, key=repo.changelog.rev)[0]].p1().node()`), with `p1`
the parent-1 map. -/
def newtopmostfn (nm p1 : Nat → Nat) (repl : List (Nat × List Nat)) :
    Option Nat :=
  if newset repl ≠ ∅ then some ((valsort nm (newset repl)).getLastD 0)
  else if finallist nm repl = [] then none
  else some (p1 (valsort nm (finalkeys repl)).headI)

/-- hgext/histedit.py lines 658-715 (`processreplacement`): the reduced
mapping, the temporary nodes, the new nodes and the new topmost node. -/
def processreplacement (nm p1 : Nat → Nat) (repl : List (Nat × List Nat)) :
    List (Nat × List Nat) × Finset Nat × Finset Nat × Option Nat :=
  (finallist nm repl, tmpnodesset repl, newset repl, newtopmostfn nm p1 repl)

/-- The invariant of the reduction loop, relative to the original
precursor set `R0` and the original `fullmapping` `fm0`: pending and
finalized nodes partition the precursors; every finalized entry holds only
terminal (non-precursor) successors; and substitution never adds a
precursor to an entry that did not relate to it in `fm0`. -/
def RInv (R0 : Finset Nat) (fm0 : Nat → Finset Nat) (st : RedState) : Prop :=
  st.tp ∪ st.fk = R0 ∧ Disjoint st.tp st.fk ∧
    (∀ k ∈ st.fk, ∀ s ∈ st.fm k, s ∉ R0) ∧
    (∀ x, ∀ s ∈ st.fm x, s ∈ R0 → s ∈ fm0 x)

/-! ## Theorems: lock release (claims C9, C10) -/

/-- C10: calling `lock.release` on a handle whose held count is already
zero is a no-op: it raises no error, performs no release or post-release
callback, does not touch the on-disk entry, and leaves the handle
unchanged — so release is safe to call any number of times after the
final release. -/
theorem C10_release_at_zero_noop (l : LockHandle) (curpid : Nat)
    (h : l.held = 0) : lockrelease l curpid = (l, []) := by
  simp [lockrelease, h]

/-- Witness for `C10_release_at_zero_noop` at a concrete handle. -/
theorem C10_witness :
    lockrelease ⟨0, 1, true, 2⟩ 7 = (⟨0, 1, true, 2⟩, []) :=
  C10_release_at_zero_noop ⟨0, 1, true, 2⟩ 7 rfl

/-- C9 counterexample: a handle with `held = 1` recorded by pid 1,
released from pid 2 (a forked child).  No callback runs and the entry is
not unlinked, but the handle's state *does* change: `held` drops to 0
before the pid guard is consulted (lock.py lines 198-202), refuting the
claim that release from a foreign pid leaves the handle's state
unchanged. -/
theorem C9_counterexample :
    (lockrelease ⟨1, 1, true, 1⟩ 2).1 ≠ (⟨1, 1, true, 1⟩ : LockHandle) ∧
    lockrelease ⟨1, 1, true, 1⟩ 2 = (⟨0, 1, true, 1⟩, []) := by
  constructor
  · intro h
    exact absurd (congrArg LockHandle.held h) (by decide)
  · rfl

/-- C9 amended: releasing from a process whose pid differs from the pid
recorded at acquisition performs no effect — no release callback, no
unlink of the on-disk entry, no post-release callback — but it is not a
full no-op on the handle: the held count is still decremented (to
`held - 1` on a recursive hold, to zero on the last hold); the other
fields are unchanged. -/
theorem C9_forked_release (l : LockHandle) (curpid : Nat)
    (h : curpid ≠ l.pid) :
    lockrelease l curpid =
      ({ l with held := if 1 < l.held then l.held - 1 else 0 }, []) := by
  by_cases h1 : 1 < l.held
  · simp [lockrelease, h1]
  · by_cases h2 : l.held = 1
    · simp [lockrelease, h1, h2, h]
    · have h0 : l.held = 0 := by omega
      simp only [lockrelease, h1, if_false, h2, if_neg, h0]
      cases l
      simp_all

/-- Witness for `C9_forked_release` at a concrete handle. -/
theorem C9_witness :
    lockrelease ⟨3, 1, true, 1⟩ 2 = (⟨2, 1, true, 1⟩, []) := by
  have := C9_forked_release ⟨3, 1, true, 1⟩ 2 (by decide)
  simpa using this

/-! ## Theorems: lock acquisition timeout (claim C8) -/

/-- Countdown behaviour of the acquisition loop when every attempt hits a
held lock and the remaining budget is the nonnegative `n`: after exactly
`n` sleeps the loop raises with the locker of the last attempt. -/
theorem lockloop_countdown (tries : Nat → Option LockerVal)
    (timeout : Int) (L : Nat → LockerVal) (hL : ∀ k, tries k = some (L k)) :
    ∀ (n fuel k slept : Nat), n < fuel →
      lockloop tries timeout fuel (n : Int) k slept =
        (LockOutcome.timedout (L (k + n)), slept + n) := by
  intro n
  induction n with
  | zero =>
    intro fuel k slept hf
    match fuel, hf with
    | fuel + 1, _ => simp [lockloop, hL k]
  | succ m ih =>
    intro fuel k slept hf
    match fuel, hf with
    | fuel + 1, hf =>
      have hne : ((m + 1 : Nat) : Int) ≠ 0 := by positivity
      have hpos : ((m + 1 : Nat) : Int) > 0 := by positivity
      have hcast : ((m + 1 : Nat) : Int) - 1 = ((m : Nat) : Int) := by push_cast; ring
      have hrec := ih fuel (k + 1) (slept + 1) (by omega)
      simp only [lockloop, hL k]
      rw [if_pos hne, if_pos hpos, hcast, hrec]
      have e1 : k + 1 + m = k + (m + 1) := by omega
      have e2 : slept + 1 + m = slept + (m + 1) := by omega
      rw [e1, e2]

/-- When every attempt hits a held lock and the budget is negative, the
loop never stops: it sleeps once per iteration forever (here: for all of
any fuel bound). -/
theorem lockloop_negative (tries : Nat → Option LockerVal)
    (timeout : Int) (L : Nat → LockerVal) (hL : ∀ k, tries k = some (L k))
    (t : Int) (ht : t < 0) :
    ∀ fuel k slept,
      lockloop tries timeout fuel t k slept = (LockOutcome.running, slept + fuel) := by
  intro fuel
  induction fuel generalizing t with
  | zero => intro k slept; simp [lockloop]
  | succ m ih =>
    intro k slept
    have hne : t ≠ 0 := by omega
    have hng : ¬ t > 0 := by omega
    simp only [lockloop, hL k]
    rw [if_pos hne, if_neg hng, ih t ht (k + 1) (slept + 1)]
    have e2 : slept + 1 + m = slept + (m + 1) := by omega
    rw [e2]

/-- C8: `lock.lock` against a lock that stays held obeys the timeout
parameter (lock.py lines 71-84).  With `timeout = 0` it raises
`LockHeld(ETIMEDOUT)` at once, without sleeping.  With `timeout = n ≥ 0`
it sleeps one second per retry, `n` times in all, and then raises
`LockHeld(ETIMEDOUT)` carrying the locker identity of the current (last)
attempt.  With `timeout < 0` it retries indefinitely — for every
observation bound `fuel` it is still running, having slept once per
attempt. -/
theorem C8_timeout_policy (tries : Nat → Option LockerVal)
    (L : Nat → LockerVal) (hL : ∀ k, tries k = some (L k)) :
    (∀ fuel, locklock tries 0 (fuel + 1) = (LockOutcome.timedout (L 0), 0)) ∧
    (∀ n fuel : Nat, n < fuel →
      locklock tries (n : Int) fuel = (LockOutcome.timedout (L n), n)) ∧
    (∀ timeout : Int, timeout < 0 → ∀ fuel,
      locklock tries timeout fuel = (LockOutcome.running, fuel)) := by
  refine ⟨fun fuel => ?_, fun n fuel hf => ?_, fun timeout ht fuel => ?_⟩
  · simp [locklock, lockloop, hL 0]
  · have := lockloop_countdown tries (n : Int) L hL n fuel 0 0 hf
    simpa [locklock] using this
  · have := lockloop_negative tries timeout L hL timeout ht fuel 0 0
    simpa [locklock] using this

/-- Witness for `C8_timeout_policy`: with every attempt held by locker
`"x"` and `timeout = 2`, the loop sleeps twice and then times out with
that locker. -/
theorem C8_witness :
    locklock (fun _ => some (LockerVal.raw "x")) ((2 : Nat) : Int) 5 =
      (LockOutcome.timedout (LockerVal.raw "x"), 2) :=
  (C8_timeout_policy (fun _ => some (LockerVal.raw "x"))
    (fun _ => LockerVal.raw "x") (fun _ => rfl)).2.1 2 5 (by decide)

/-! ## Theorems: range selection (claim C6) -/

/-- C6 counterexample: with `keep = true`, a non-empty range `[5]` whose
root has phase 0 (immutable) is returned without any abort — `between`
only checks phases when `keep` is false (hgext/histedit.py line 596),
refuting "aborts ... regardless of other options". -/
theorem C6_counterexample :
    betweenfn [5] true false (fun _ => 0) = Except.ok [5] := by
  rfl

/-- C6 amended: the immutability check is conditional on `keep`: for a
non-empty resolved range with `keep` false whose orphan check passes,
`between` aborts with `ImmutableRevision` exactly when the root is not
mutable (phase 0); with `keep` true it performs no check at all and
returns the range. -/
theorem C6_between_immutable_root (root : Nat) (rest ctxs : List Nat)
    (orphans : Bool) (phase : Nat → Nat) :
    (betweenfn (root :: rest) false false phase =
      if phase root = 0 then Except.error BetweenErr.immutable
      else Except.ok (root :: rest)) ∧
    betweenfn ctxs true orphans phase = Except.ok ctxs := by
  constructor
  · simp [betweenfn]
  · simp [betweenfn]

/-! ## Theorems: fold finalization (claim C5) -/

/-- `pyjoin` is `List.intercalate`. -/
theorem pyjoin_eq_intercalate (sep : List Char) (l : List (List Char)) :
    pyjoin sep l = List.intercalate sep l := by
  induction l with
  | nil => rfl
  | cons x xs ih =>
    cases xs with
    | nil => simp [pyjoin, List.intercalate]
    | cons y ys =>
      have h1 : pyjoin sep (x :: y :: ys) = x ++ sep ++ pyjoin sep (y :: ys) := rfl
      rw [h1, ih]
      simp [List.intercalate, List.intersperse_cons_cons, List.append_assoc]

/-- C5 counterexample: with `ctx.description = "a"`,
`oldctx.description = "b"` and no internal changes, the message
`finishfold` records is `"a\n***\nb\n"` — the `"\n***\n"`-join *plus a
trailing newline* (hgext/histedit.py line 331), not "exactly that string
and nothing more" as claimed. -/
theorem C5_counterexample :
    (finishfoldopts "u".toList ⟨1, "du".toList, "a".toList, (0, 0), []⟩
        ⟨2, "du".toList, "b".toList, (0, 0), []⟩ []).message
      = "a\n***\nb\n".toList ∧
    "a\n***\nb\n".toList ≠ "a\n***\nb".toList := by
  constructor
  · rfl
  · decide

/-- C5 amended: `finishfold` builds the combined commit's options with
message equal to `ctx.description`, the internal changes' descriptions and
`oldctx.description` joined by `"\n***\n"` **followed by one trailing
newline**; user equal to `ctx.user` when it equals `oldctx.user` and the
invoking user otherwise; date equal to `max(ctx.date, oldctx.date)`;
`collapse` takes the extra map from `ctx`; and on success the emitted
replacements are exactly `(oldctx,(newnode,))`, `(ctx,(combined,))`,
`(newnode,(combined,))` plus one `(ich,(combined,))` per internal change
(and `(ctx, [])` when the combined commit would be empty). -/
theorem C5_finishfold_data (uiusername : List Char) (ctx oldctx : Ctx)
    (descs : List (List Char)) (internal : List Nat) (newnode n : Nat) :
    (finishfoldopts uiusername ctx oldctx descs).message =
      List.intercalate "\n***\n".toList
        ([ctx.desc] ++ descs ++ [oldctx.desc]) ++ ['\n'] ∧
    (finishfoldopts uiusername ctx oldctx descs).user =
      (if ctx.user = oldctx.user then ctx.user else uiusername) ∧
    (finishfoldopts uiusername ctx oldctx descs).date =
      pymaxdate ctx.date oldctx.date ∧
    (collapsedata ctx (finishfoldopts uiusername ctx oldctx descs)).extra =
      ctx.extra ∧
    (collapsedata ctx (finishfoldopts uiusername ctx oldctx descs)).message =
      (finishfoldopts uiusername ctx oldctx descs).message ∧
    finishfold ctx oldctx newnode internal (some n) =
      (n, [(oldctx.nodeid, [newnode]), (ctx.nodeid, [n]), (newnode, [n])] ++
          internal.map (fun ich => (ich, [n]))) ∧
    finishfold ctx oldctx newnode internal none = (ctx.nodeid, []) := by
  refine ⟨?_, rfl, rfl, rfl, ?_, rfl, rfl⟩
  · rw [show (finishfoldopts uiusername ctx oldctx descs).message =
        pyjoin "\n***\n".toList ([ctx.desc] ++ descs ++ [oldctx.desc]) ++ ['\n'] from rfl,
      pyjoin_eq_intercalate]
  · have hmsg : (finishfoldopts uiusername ctx oldctx descs).message ≠ [] := by
      rw [show (finishfoldopts uiusername ctx oldctx descs).message =
          pyjoin "\n***\n".toList ([ctx.desc] ++ descs ++ [oldctx.desc]) ++ ['\n'] from rfl]
      simp
    simp [collapsedata, hmsg]

/-! ## Theorems: plan verification (claims C1, C2) -/

/-- Success of the per-rule check, characterized: the line contains a
space, the identifier the code extracts resolves to a changeset of the
edit range, and the action is known. -/
theorem verifyrule_isSome (repo : List (List Char × Nat)) (ctxs : List Nat)
    (r : List Char) :
    (verifyrule repo ctxs r).isSome = true ↔
      ' ' ∈ r ∧
      (∃ n, repolookup repo (rulehash r) = some n ∧ n ∈ ctxs) ∧
      ruleaction r ∈ actionkeys := by
  unfold verifyrule
  by_cases hsp : ' ' ∈ r
  · rcases hlk : repolookup repo (rulehash r) with _ | n
    · simp [hlk]
    · by_cases hin : n ∈ ctxs <;> by_cases hak : ruleaction r ∈ actionkeys <;>
        simp [hsp, hin, hak, hlk]
  · simp [hsp]

/-- Success of the rule loop is success of every rule. -/
theorem verifyrulesgo_isSome (repo : List (List Char × Nat)) (ctxs : List Nat)
    (rs : List (List Char)) :
    (verifyrulesgo repo ctxs rs).isSome = true ↔
      ∀ r ∈ rs, (verifyrule repo ctxs r).isSome = true := by
  induction rs with
  | nil => simp [verifyrulesgo]
  | cons r rs ih =>
    unfold verifyrulesgo
    rcases h1 : verifyrule repo ctxs r with _ | p
    · simp only [Option.isSome_none, Bool.false_eq_true, false_iff]
      intro h
      have := h r (List.mem_cons_self r rs)
      rw [h1] at this
      exact absurd this (by decide)
    · rcases h2 : verifyrulesgo repo ctxs rs with _ | ps
      · rw [h2] at ih
        simp only [Option.isSome_none, Bool.false_eq_true, false_iff] at ih ⊢
        intro h
        exact ih (fun x hx => h x (List.mem_cons_of_mem r hx))
      · rw [h2] at ih
        simp only [Option.isSome_some, true_iff] at ih ⊢
        intro x hx
        rcases List.mem_cons.mp hx with rfl | hx'
        · rw [h1]; rfl
        · exact ih x hx'

/-- C1 counterexample: the edit range holds two changesets, nodes 0
(`"a"`) and 1 (`"b"`), and the plan repeats the rule for `"a"` twice.
Verification succeeds — `verifyrules` only compares counts and checks
range membership per rule (hgext/histedit.py lines 637, 648), so a
duplicated commit with a correspondingly missing one is not rejected,
refuting "exactly one entry per commit ... for any rule list with a
duplicated commit ... verification aborts". -/
theorem C1_counterexample :
    verifyrules ["pick a 0".toList, "pick a 0".toList]
        [("a".toList, 0), ("b".toList, 1)] [0, 1]
      = some [("pick".toList, "a".toList), ("pick".toList, "a".toList)] ∧
    (∀ p ∈ [("pick".toList, "a".toList), ("pick".toList, "a".toList)],
        repolookup [("a".toList, 0), ("b".toList, 1)] p.2 ≠ some 1) := by
  constructor
  · rfl
  · decide

/-- C1 amended: plan verification succeeds iff the number of rules equals
the number of changesets of the edit range and every rule line contains a
space, carries an identifier that resolves to a changeset inside the
range, and names a known action.  (Exactly-one-entry-per-commit is *not*
enforced: a duplicated entry compensated by a missing one passes, as
`C1_counterexample` shows; and the identifier compared is the one the
code extracts, which for a line with no trailing revision/summary is the
whole stripped line — see claim C2.) -/
theorem C1_verifyrules_iff (rules : List (List Char))
    (repo : List (List Char × Nat)) (ctxs : List Nat) :
    (verifyrules rules repo ctxs).isSome = true ↔
      rules.length = ctxs.length ∧
      ∀ r ∈ rules, ' ' ∈ r ∧
        (∃ n, repolookup repo (rulehash r) = some n ∧ n ∈ ctxs) ∧
        ruleaction r ∈ actionkeys := by
  unfold verifyrules
  by_cases hlen : rules.length = ctxs.length
  · rw [if_neg (by simpa using hlen)]
    rw [verifyrulesgo_isSome]
    constructor
    · intro h
      exact ⟨hlen, fun r hr => (verifyrule_isSome repo ctxs r).mp (h r hr)⟩
    · intro h r hr
      exact (verifyrule_isSome repo ctxs r).mpr (h.2 r hr)
  · rw [if_pos (by simpa using hlen)]
    simp only [Option.isSome_none, Bool.false_eq_true, false_iff]
    intro h
    exact absurd h.1 hlen

/-- C2: the code at the failing input.  The plan text `"pick a\n"` — a
well-formed line of just an action and an in-range commit-id —
preprocesses to the single rule `"pick a"`; the identifier the code takes
is `r.strip()` (hgext/histedit.py line 646), i.e. the whole line
`"pick a"` including the action, not the first token `"a"` of the rest;
the `repo[ha]` lookup therefore fails and verification aborts with
"unknown changeset", although `"a"` resolves to node 0, which is in the
range. -/
theorem C2_short_line_misparsed :
    preprocessrules "pick a\n".toList = ["pick a".toList] ∧
    rulehash "pick a".toList = "pick a".toList ∧
    repolookup [("a".toList, 0)] "a".toList = some 0 ∧
    verifyrules ["pick a".toList] [("a".toList, 0)] [0] = none := by
  refine ⟨rfl, rfl, rfl, rfl⟩

/-! ## Theorems: stale-lock breaking (claim C7) -/

/-- Looking up after creating. -/
theorem fslookup_cons (e : String × LockerVal) (fs : LockFS) (g : String) :
    fslookup (e :: fs) g = if e.1 = g then some e.2 else fslookup fs g := by
  by_cases h : e.1 = g <;> simp [fslookup, List.find?_cons, h]

/-- Unlinking distributes over the head entry. -/
theorem fsunlink_cons (e : String × LockerVal) (fs : LockFS) (f : String) :
    fsunlink (e :: fs) f =
      if e.1 = f then fsunlink fs f else e :: fsunlink fs f := by
  by_cases h : e.1 = f <;> simp [fsunlink, List.filter_cons, h]

/-- After `fsunlink fs f` the entry `f` is gone. -/
theorem fslookup_fsunlink_same (fs : LockFS) (f : String) :
    fslookup (fsunlink fs f) f = none := by
  induction fs with
  | nil => rfl
  | cons e fs ih =>
    rw [fsunlink_cons]
    by_cases h : e.1 = f
    · simpa [h] using ih
    · rw [if_neg h, fslookup_cons, if_neg h]
      exact ih

/-- Unlinking one name leaves the others alone. -/
theorem fslookup_fsunlink_ne (fs : LockFS) (f g : String) (h : g ≠ f) :
    fslookup (fsunlink fs f) g = fslookup fs g := by
  induction fs with
  | nil => rfl
  | cons e fs ih =>
    rw [fsunlink_cons]
    by_cases he : e.1 = f
    · rw [if_pos he, ih, fslookup_cons, if_neg (by rw [he]; exact Ne.symm h)]
    · rw [if_neg he, fslookup_cons, fslookup_cons, ih]

/-- The meta-lock name `f ++ ".break"` differs from `f`. -/
theorem breakname_ne (f : String) : ¬ (f ++ ".break" = f) := by
  intro h
  have hlen := congrArg String.length h
  rw [String.length_append] at hlen
  have h6 : (".break" : String).length = 6 := rfl
  omega

/-- C7: an acquire attempt that collides with a lock recorded as
`host:pid` for the local host probes the pid (lock.py lines 123-145).
If the pid is alive, acquisition raises `LockHeld` carrying the owner
identity and the filesystem is untouched.  If the pid is dead and the
meta-lock `f ++ ".break"` is free, the stale entry is broken under that
meta-lock (itself acquired with timeout 0 and released afterwards, so it
is absent again at the end), the stale entry is unlinked, and the retried
acquisition succeeds: the lock file now records the acquirer. -/
theorem C7_stale_lock (env : LockEnv) (mypid p : Nat) (f : String)
    (fs : LockFS) (fuel : Nat)
    (hcol : fslookup fs f = some (LockerVal.hostpid env.host p)) :
    (env.testpid p = true →
      trylockloop env mypid f 5 fs fuel =
        (TryRes.heldby (LockerVal.hostpid env.host p), fs)) ∧
    (env.testpid p = false → fslookup fs (f ++ ".break") = none →
      ∃ fs', trylockloop env mypid f 5 fs (fuel + 1) = (TryRes.ok true, fs') ∧
        fslookup fs' f = some (LockerVal.hostpid env.host mypid) ∧
        fslookup fs' (f ++ ".break") = none) := by
  constructor
  · intro halive
    have htest : testlockF env mypid f fs fuel =
        (some (LockerVal.hostpid env.host p), fs) := by
      unfold testlockF
      rw [hcol]
      simp [halive]
    unfold trylockloop
    rw [hcol, htest]
  · intro hdead hbrk
    have hmk : fslookup (fsmake fs (f ++ ".break")
          (LockerVal.hostpid env.host mypid)) (f ++ ".break") =
        some (LockerVal.hostpid env.host mypid) := by
      rw [fsmake, fslookup_cons, if_pos rfl]
    have hbreaktry : trylockloop env mypid (f ++ ".break") 5 fs fuel =
        (TryRes.ok true,
          fsmake fs (f ++ ".break") (LockerVal.hostpid env.host mypid)) := by
      unfold trylockloop
      rw [hbrk]
    have htest : testlockF env mypid f fs (fuel + 1) =
        (none,
          fsunlink
            (fsunlink (fsmake fs (f ++ ".break")
              (LockerVal.hostpid env.host mypid)) f)
            (f ++ ".break")) := by
      unfold testlockF
      rw [hcol]
      simp [hdead, hbreaktry]
    refine ⟨fsmake (fsunlink (fsunlink (fsmake fs (f ++ ".break")
        (LockerVal.hostpid env.host mypid)) f) (f ++ ".break")) f
        (LockerVal.hostpid env.host mypid), ?_, ?_, ?_⟩
    · have hlk3 : fslookup
          (fsunlink (fsunlink (fsmake fs (f ++ ".break")
            (LockerVal.hostpid env.host mypid)) f) (f ++ ".break")) f = none := by
        rw [fslookup_fsunlink_ne _ _ _ (fun h => breakname_ne f h.symm),
          fslookup_fsunlink_same]
      show trylockloop env mypid f (4 + 1) fs (fuel + 1) = _
      unfold trylockloop
      rw [hcol, htest]
      show trylockloop env mypid f (3 + 1) _ (fuel + 1) = _
      unfold trylockloop
      rw [hlk3]
    · rw [fsmake, fslookup_cons, if_pos rfl]
    · rw [fsmake, fslookup_cons,
        if_neg (show ¬((f, LockerVal.hostpid env.host mypid).1 = f ++ ".break")
          from fun h => breakname_ne f h.symm),
        fslookup_fsunlink_same]

/-- Witness for `C7_stale_lock`: host `"h"`, stale owner pid 9 (dead),
acquirer pid 3; the lock on `"l"` is broken and re-acquired. -/
theorem C7_witness :
    ∃ fs', trylockloop ⟨"h", fun q => q == 7⟩ 3 "l"
        5 [("l", LockerVal.hostpid "h" 9)] 1 = (TryRes.ok true, fs') ∧
      fslookup fs' "l" = some (LockerVal.hostpid "h" 3) ∧
      fslookup fs' ("l" ++ ".break") = none :=
  (C7_stale_lock ⟨"h", fun q => q == 7⟩ 3 9 "l"
    [("l", LockerVal.hostpid "h" 9)] 0 rfl).2 rfl rfl

/-! ## Theorems: replacement-graph reduction (claims C3, C4) -/

theorem mem_replacedset {repl : List (Nat × List Nat)} {x : Nat} :
    x ∈ replacedset repl ↔ ∃ pr ∈ repl, pr.1 = x := by
  simp [replacedset]

theorem mem_allsuccs {repl : List (Nat × List Nat)} {s : Nat} :
    s ∈ allsuccs repl ↔ ∃ pr ∈ repl, s ∈ pr.2 := by
  simp only [allsuccs, List.mem_toFinset, List.mem_flatten, List.mem_map]
  constructor
  · rintro ⟨l, ⟨pr, hpr, rfl⟩, hs⟩
    exact ⟨pr, hpr, hs⟩
  · rintro ⟨pr, hpr, hs⟩
    exact ⟨pr.2, ⟨pr, hpr, rfl⟩, hs⟩

theorem mem_fullmapping {repl : List (Nat × List Nat)} {x s : Nat} :
    s ∈ fullmapping repl x ↔ ∃ pr ∈ repl, pr.1 = x ∧ s ∈ pr.2 := by
  simp only [fullmapping, List.mem_toFinset, List.mem_flatten, List.mem_map,
    List.mem_filter, beq_iff_eq]
  constructor
  · rintro ⟨l, ⟨pr, ⟨hpr, hx⟩, rfl⟩, hs⟩
    exact ⟨pr, hpr, hx, hs⟩
  · rintro ⟨pr, hpr, hx, hs⟩
    exact ⟨pr.2, ⟨pr, ⟨hpr, hx⟩, rfl⟩, hs⟩

/-- The inner loop finishes (Python's for-else) exactly when no snapshot
element is still pending; the evolving accumulator never matters for the
break test. -/
theorem procsuccs_true_iff (fm : Nat → Finset Nat) (tp fk : Finset Nat) :
    ∀ (snap : List Nat) (acc : Finset Nat),
      (procsuccs fm tp fk snap acc).2 = true ↔ ∀ s ∈ snap, s ∉ tp := by
  intro snap
  induction snap with
  | nil => intro acc; simp [procsuccs]
  | cons s rest ih =>
    intro acc
    simp only [procsuccs]
    by_cases hs : s ∈ tp
    · rw [if_pos hs]
      simp only [Bool.false_eq_true, false_iff]
      intro h
      exact (h s (List.mem_cons_self s rest)) hs
    · rw [if_neg hs]
      have step : ∀ acc' : Finset Nat,
          (procsuccs fm tp fk rest acc').2 = true ↔
            ∀ t ∈ s :: rest, t ∉ tp := by
        intro acc'
        rw [ih acc']
        constructor
        · intro h t ht
          rcases List.mem_cons.mp ht with rfl | ht'
          · exact hs
          · exact h t ht'
        · intro h t ht
          exact h t (List.mem_cons_of_mem s ht)
      by_cases hk : s ∈ fk
      · rw [if_pos hk]; exact step _
      · rw [if_neg hk]; exact step _

/-- Every element of the evolved successor set comes from the original
set or from the closure of a finalized snapshot element. -/
theorem mem_procsuccs (fm : Nat → Finset Nat) (tp fk : Finset Nat) :
    ∀ (snap : List Nat) (acc : Finset Nat) (t : Nat),
      t ∈ (procsuccs fm tp fk snap acc).1 →
      t ∈ acc ∨ ∃ s ∈ snap, s ∈ fk ∧ t ∈ fm s := by
  intro snap
  induction snap with
  | nil =>
    intro acc t ht
    exact Or.inl (by simpa [procsuccs] using ht)
  | cons s rest ih =>
    intro acc t ht
    simp only [procsuccs] at ht
    by_cases hs : s ∈ tp
    · rw [if_pos hs] at ht
      exact Or.inl ht
    · rw [if_neg hs] at ht
      by_cases hk : s ∈ fk
      · rw [if_pos hk] at ht
        rcases ih _ t ht with h | ⟨u, hu, huk, hut⟩
        · rcases Finset.mem_union.mp h with h | h
          · exact Or.inl (Finset.mem_of_mem_erase h)
          · exact Or.inr ⟨s, List.mem_cons_self s rest, hk, h⟩
        · exact Or.inr ⟨u, List.mem_cons_of_mem s hu, huk, hut⟩
      · rw [if_neg hk] at ht
        rcases ih _ t ht with h | ⟨u, hu, huk, hut⟩
        · exact Or.inl h
        · exact Or.inr ⟨u, List.mem_cons_of_mem s hu, huk, hut⟩

/-- When the inner loop finishes, the resulting set holds only terminal
nodes, provided finalized entries are terminal, pending-or-finalized
covers the precursors, and every precursor still in the accumulator is
still to be visited. -/
theorem procsuccs_terminal (fm : Nat → Finset Nat) (tp fk R0 : Finset Nat)
    (hfk : ∀ k ∈ fk, ∀ s ∈ fm k, s ∉ R0)
    (hpart : ∀ s ∈ R0, s ∈ tp ∨ s ∈ fk) :
    ∀ (snap : List Nat) (acc : Finset Nat),
      (∀ t ∈ acc, t ∈ R0 → t ∈ snap) →
      (procsuccs fm tp fk snap acc).2 = true →
      ∀ t ∈ (procsuccs fm tp fk snap acc).1, t ∉ R0 := by
  intro snap
  induction snap with
  | nil =>
    intro acc hcov _ t ht htR
    simp only [procsuccs] at ht
    exact absurd (hcov t ht htR) (List.not_mem_nil t)
  | cons s rest ih =>
    intro acc hcov htrue t ht htR
    simp only [procsuccs] at htrue ht
    by_cases hs : s ∈ tp
    · rw [if_pos hs] at htrue
      simp at htrue
    · rw [if_neg hs] at htrue ht
      by_cases hk : s ∈ fk
      · rw [if_pos hk] at htrue ht
        refine absurd htR (ih _ ?_ htrue t ht)
        intro u hu huR
        rcases Finset.mem_union.mp hu with hu | hu
        · have hmem := hcov u (Finset.mem_of_mem_erase hu) huR
          rcases List.mem_cons.mp hmem with rfl | h
          · exact absurd rfl (Finset.ne_of_mem_erase hu)
          · exact h
        · exact absurd huR (hfk s hk u hu)
      · rw [if_neg hk] at htrue ht
        have hsR : s ∉ R0 := by
          intro hsR
          rcases hpart s hsR with h | h
          · exact hs h
          · exact hk h
        refine absurd htR (ih _ ?_ htrue t ht)
        intro u hu huR
        have hmem := hcov u hu huR
        rcases List.mem_cons.mp hmem with rfl | h
        · exact absurd huR hsR
        · exact h

/-- A snapshot that never meets `toproceed` or the finalized keys leaves
the accumulator untouched and completes. -/
theorem procsuccs_skip (fm : Nat → Finset Nat) (tp fk : Finset Nat) :
    ∀ (snap : List Nat) (acc : Finset Nat),
      (∀ s ∈ snap, s ∉ tp ∧ s ∉ fk) →
      procsuccs fm tp fk snap acc = (acc, true) := by
  intro snap
  induction snap with
  | nil => intro acc _; rfl
  | cons s rest ih =>
    intro acc h
    have hs := h s (List.mem_cons_self s rest)
    simp only [procsuccs]
    rw [if_neg hs.1, if_neg hs.2]
    exact ih acc (fun u hu => h u (List.mem_cons_of_mem s hu))

/-- Processing one node never adds to `toproceed`. -/
theorem redstep_tp_subset (st : RedState) (x : Nat) :
    (redstep st x).tp ⊆ st.tp := by
  unfold redstep
  by_cases h :
      (procsuccs st.fm st.tp st.fk (Finset.sort (· ≤ ·) (st.fm x)) (st.fm x)).2 = true
  · simp only [h, if_true]
    exact Finset.erase_subset x st.tp
  · simp only [h, if_false]
    exact fun a ha => ha

/-- A pass never adds to `toproceed`. -/
theorem onepass_tp_subset : ∀ (l : List Nat) (st : RedState),
    (onepass l st).tp ⊆ st.tp := by
  intro l
  induction l with
  | nil => intro st a ha; exact ha
  | cons x rest ih =>
    intro st
    exact (ih (redstep st x)).trans (redstep_tp_subset st x)

/-- Processing a pending node preserves the reduction invariant. -/
theorem redstep_inv (R0 : Finset Nat) (fm0 : Nat → Finset Nat)
    (st : RedState) (x : Nat) (hinv : RInv R0 fm0 st) (hx : x ∈ st.tp) :
    RInv R0 fm0 (redstep st x) := by
  obtain ⟨h1, h2, h3, h4⟩ := hinv
  have hmem : ∀ a, a ∈ R0 ↔ a ∈ st.tp ∨ a ∈ st.fk := by
    intro a
    rw [← h1, Finset.mem_union]
  have hxfk : x ∉ st.fk := fun hxk =>
    (Finset.disjoint_left.mp h2 hx) hxk
  set r := procsuccs st.fm st.tp st.fk (Finset.sort (· ≤ ·) (st.fm x)) (st.fm x)
    with hr
  have hupd4 : ∀ y, ∀ s ∈ Function.update st.fm x r.1 y, s ∈ R0 → s ∈ fm0 y := by
    intro y s hs hsR
    by_cases hy : y = x
    · subst hy
      rw [Function.update_same] at hs
      rcases mem_procsuccs st.fm st.tp st.fk _ _ s hs with h | ⟨u, _, huk, hus⟩
      · exact h4 y s h hsR
      · exact absurd hsR (h3 u huk s hus)
    · rw [Function.update_noteq hy] at hs
      exact h4 y s hs hsR
  unfold redstep
  rw [← hr]
  by_cases hfin : r.2 = true
  · simp only [hfin, if_true]
    refine ⟨?_, ?_, ?_, hupd4⟩
    · ext a
      rw [Finset.mem_union, Finset.mem_erase, Finset.mem_insert, hmem a]
      by_cases ha : a = x
      · subst ha
        simp [hx]
      · simp [ha]
    · rw [Finset.disjoint_left]
      intro a ha hb
      rcases Finset.mem_insert.mp hb with rfl | hb
      · exact (Finset.mem_erase.mp ha).1 rfl
      · exact (Finset.disjoint_left.mp h2 (Finset.mem_of_mem_erase ha)) hb
    · show ∀ k ∈ insert x st.fk, ∀ s ∈ Function.update st.fm x r.1 k, s ∉ R0
      intro k hk s hs
      rcases Finset.mem_insert.mp hk with rfl | hk
      · rw [Function.update_same] at hs
        refine procsuccs_terminal st.fm st.tp st.fk R0 h3
          (fun u hu => (hmem u).mp hu) _ _ ?_ hfin s hs
        intro t ht htR
        exact (Finset.mem_sort (α := Nat) (· ≤ ·)).mpr ht
      · have hkx : k ≠ x := fun h => hxfk (h ▸ hk)
        rw [Function.update_noteq hkx] at hs
        exact h3 k hk s hs
  · simp only [hfin, if_false]
    refine ⟨h1, h2, ?_, hupd4⟩
    show ∀ k ∈ st.fk, ∀ s ∈ Function.update st.fm x r.1 k, s ∉ R0
    intro k hk s hs
    have hkx : k ≠ x := fun h => hxfk (h ▸ hk)
    rw [Function.update_noteq hkx] at hs
    exact h3 k hk s hs

/-- A pass over pending nodes preserves the reduction invariant. -/
theorem onepass_inv (R0 : Finset Nat) (fm0 : Nat → Finset Nat) :
    ∀ (l : List Nat) (st : RedState), RInv R0 fm0 st → l.Nodup →
      (∀ x ∈ l, x ∈ st.tp) → RInv R0 fm0 (onepass l st) := by
  intro l
  induction l with
  | nil => intro st hinv _ _; exact hinv
  | cons x rest ih =>
    intro st hinv hnd hmem
    have hx : x ∈ st.tp := hmem x (List.mem_cons_self x rest)
    have hinv' := redstep_inv R0 fm0 st x hinv hx
    refine ih (redstep st x) hinv' (List.Nodup.of_cons hnd) ?_
    intro y hy
    have hyst : y ∈ st.tp := hmem y (List.mem_cons_of_mem x hy)
    have hyx : y ≠ x := fun h => (List.nodup_cons.mp hnd).1 (h ▸ hy)
    unfold redstep
    by_cases hfin :
        (procsuccs st.fm st.tp st.fk (Finset.sort (· ≤ ·) (st.fm x)) (st.fm x)).2 = true
    · simp only [hfin, if_true]
      exact Finset.mem_erase.mpr ⟨hyx, hyst⟩
    · simp only [hfin, if_false]
      exact hyst

/-- A node other than the processed one stays pending. -/
theorem redstep_tp_mem (st : RedState) (z y : Nat) (hy : y ∈ st.tp)
    (hyz : y ≠ z) : y ∈ (redstep st z).tp := by
  unfold redstep
  by_cases hfin :
      (procsuccs st.fm st.tp st.fk (Finset.sort (· ≤ ·) (st.fm z)) (st.fm z)).2 = true
  · simp only [hfin, if_true]
    exact Finset.mem_erase.mpr ⟨hyz, hy⟩
  · simp only [hfin, if_false]
    exact hy

/-- A pass that visits a pending node of minimal rank finalizes it: under
the acyclicity rank, all its current successors that are still precursors
sit strictly below it, so none of them is still pending. -/
theorem onepass_removes (R0 : Finset Nat) (fm0 : Nat → Finset Nat)
    (rank : Nat → Nat) (hrank : ∀ y, ∀ s ∈ fm0 y, rank s < rank y) :
    ∀ (l : List Nat) (st : RedState) (x : Nat), RInv R0 fm0 st → l.Nodup →
      (∀ y ∈ l, y ∈ st.tp) → x ∈ l →
      (∀ y ∈ st.tp, rank x ≤ rank y) →
      x ∉ (onepass l st).tp := by
  intro l
  induction l with
  | nil => intro st x _ _ _ hx _; exact absurd hx (List.not_mem_nil x)
  | cons z rest ih =>
    intro st x hinv hnd hmem hx hmin
    have hz : z ∈ st.tp := hmem z (List.mem_cons_self z rest)
    by_cases hzx : z = x
    · subst hzx
      have hfin : (procsuccs st.fm st.tp st.fk
          (Finset.sort (· ≤ ·) (st.fm z)) (st.fm z)).2 = true := by
        rw [procsuccs_true_iff]
        intro s hs hstp
        have hsfm : s ∈ st.fm z := (Finset.mem_sort (α := Nat) (· ≤ ·)).mp hs
        have hsR : s ∈ R0 := by
          rw [← hinv.1]
          exact Finset.mem_union_left _ hstp
        have hlt := hrank z s (hinv.2.2.2 z s hsfm hsR)
        have hle := hmin s hstp
        omega
      have hxout : z ∉ (redstep st z).tp := by
        unfold redstep
        simp only [hfin, if_true]
        exact Finset.not_mem_erase z st.tp
      intro hcon
      exact hxout (onepass_tp_subset rest (redstep st z) hcon)
    · have hinv' := redstep_inv R0 fm0 st z hinv hz
      have hxrest : x ∈ rest := by
        rcases List.mem_cons.mp hx with h | h
        · exact absurd h.symm hzx
        · exact h
      refine ih (redstep st z) x hinv' (List.Nodup.of_cons hnd) ?_ hxrest ?_
      · intro y hy
        exact redstep_tp_mem st z y (hmem y (List.mem_cons_of_mem z hy))
          (fun h => (List.nodup_cons.mp hnd).1 (h ▸ hy))
      · intro y hy
        exact hmin y (redstep_tp_subset st z hy)

/-- Each full pass over a non-empty pending set strictly shrinks it. -/
theorem onepass_progress (R0 : Finset Nat) (fm0 : Nat → Finset Nat)
    (rank : Nat → Nat) (hrank : ∀ y, ∀ s ∈ fm0 y, rank s < rank y)
    (st : RedState) (hinv : RInv R0 fm0 st) (hne : st.tp ≠ ∅) :
    (onepass (Finset.sort (· ≤ ·) st.tp) st).tp ⊂ st.tp := by
  obtain ⟨x, hx, hmin⟩ := Finset.exists_min_image st.tp rank
    (Finset.nonempty_of_ne_empty hne)
  refine (Finset.ssubset_iff_of_subset (onepass_tp_subset _ st)).mpr ?_
  refine ⟨x, hx, ?_⟩
  exact onepass_removes R0 fm0 rank hrank _ st x hinv
    (Finset.sort_nodup _ _) (fun y hy => (Finset.mem_sort (α := Nat) (· ≤ ·)).mp hy)
    ((Finset.mem_sort (α := Nat) (· ≤ ·)).mpr hx) hmin

/-- With fuel exceeding the number of pending nodes, the while-loop
terminates with nothing pending and the invariant intact. -/
theorem redloop_spec (R0 : Finset Nat) (fm0 : Nat → Finset Nat)
    (rank : Nat → Nat) (hrank : ∀ y, ∀ s ∈ fm0 y, rank s < rank y) :
    ∀ (fuel : Nat) (st : RedState), RInv R0 fm0 st → st.tp.card < fuel →
      (redloop fuel st).tp = ∅ ∧ RInv R0 fm0 (redloop fuel st) := by
  intro fuel
  induction fuel with
  | zero => intro st _ h; omega
  | succ m ih =>
    intro st hinv hcard
    simp only [redloop]
    by_cases hemp : st.tp = ∅
    · rw [if_pos hemp]
      exact ⟨hemp, hinv⟩
    · rw [if_neg hemp]
      have hss := onepass_progress R0 fm0 rank hrank st hinv hemp
      have hcard' := Finset.card_lt_card hss
      exact ih _ (onepass_inv R0 fm0 _ st hinv (Finset.sort_nodup _ _)
        (fun x hx => (Finset.mem_sort (α := Nat) (· ≤ ·)).mp hx)) (by omega)

/-- The state after `redstate`: nothing pending, every precursor
finalized, and every finalized successor set terminal. -/
theorem redstate_spec (repl : List (Nat × List Nat)) (rank : Nat → Nat)
    (hrank : ∀ pr ∈ repl, ∀ s ∈ pr.2, rank s < rank pr.1) :
    (redstate repl).tp = ∅ ∧ (redstate repl).fk = replacedset repl ∧
    (∀ k ∈ replacedset repl, ∀ s ∈ (redstate repl).fm k,
        s ∉ replacedset repl) := by
  have hrank' : ∀ y, ∀ s ∈ fullmapping repl y, rank s < rank y := by
    intro y s hs
    obtain ⟨pr, hpr, hy, hspr⟩ := mem_fullmapping.mp hs
    exact hy ▸ hrank pr hpr s hspr
  have hinv0 : RInv (replacedset repl) (fullmapping repl)
      { fm := fullmapping repl, tp := replacedset repl, fk := ∅ } := by
    refine ⟨?_, ?_, ?_, ?_⟩
    · show replacedset repl ∪ ∅ = replacedset repl
      exact Finset.union_empty _
    · show Disjoint (replacedset repl) ∅
      exact Finset.disjoint_empty_right _
    · show ∀ k ∈ (∅ : Finset Nat), ∀ s ∈ fullmapping repl k, s ∉ replacedset repl
      intro k hk
      exact absurd hk (Finset.not_mem_empty k)
    · exact fun x s hs _ => hs
  obtain ⟨hemp, hinv⟩ := redloop_spec (replacedset repl) (fullmapping repl)
    rank hrank' ((replacedset repl).card + 1) _ hinv0 (Nat.lt_succ_self _)
  refine ⟨hemp, ?_, ?_⟩
  · have h1 := hinv.1
    rw [hemp] at h1
    simpa using h1
  · intro k hk s hs
    have hfk : (redstate repl).fk = replacedset repl := by
      have h1 := hinv.1
      rw [hemp] at h1
      simpa using h1
    rw [← hfk] at hk
    exact hinv.2.2.1 k hk s hs

theorem valsort_perm (nm : Nat → Nat) (s : Finset Nat) :
    List.Perm (valsort nm s) (Finset.sort (· ≤ ·) s) :=
  List.perm_insertionSort _ _

theorem mem_valsort {nm : Nat → Nat} {s : Finset Nat} {a : Nat} :
    a ∈ valsort nm s ↔ a ∈ s := by
  rw [(valsort_perm nm s).mem_iff, Finset.mem_sort]

theorem valsort_sorted (nm : Nat → Nat) (s : Finset Nat) :
    List.Sorted (nmrel nm) (valsort nm s) :=
  List.sorted_insertionSort _ _

theorem valsort_nodup (nm : Nat → Nat) (s : Finset Nat) :
    (valsort nm s).Nodup :=
  ((valsort_perm nm s).nodup_iff).mpr (Finset.sort_nodup _ _)

theorem valsort_ne_nil (nm : Nat → Nat) (s : Finset Nat) (h : s ≠ ∅) :
    valsort nm s ≠ [] := by
  intro hn
  apply h
  ext a
  simp only [Finset.not_mem_empty, iff_false]
  intro ha
  have hmem : a ∈ valsort nm s := mem_valsort.mpr ha
  rw [hn] at hmem
  exact List.not_mem_nil a hmem

/-- In a sorted list the head is below every element. -/
theorem sorted_head_min {r : Nat → Nat → Prop} {x : Nat} {t : List Nat}
    (h : List.Sorted r (x :: t)) : ∀ y ∈ x :: t, r x y ∨ x = y := by
  intro y hy
  rcases List.mem_cons.mp hy with rfl | hy
  · exact Or.inr rfl
  · exact Or.inl (List.rel_of_sorted_cons h y hy)

/-- In a sorted non-empty list the last element is above every element. -/
theorem sorted_getLastD_max {r : Nat → Nat → Prop} :
    ∀ (l : List Nat) (d : Nat), List.Sorted r l → l ≠ [] →
      l.getLastD d ∈ l ∧ ∀ y ∈ l, r y (l.getLastD d) ∨ y = l.getLastD d := by
  intro l
  induction l with
  | nil => intro d _ h; exact absurd rfl h
  | cons x t ih =>
    intro d hs _
    cases t with
    | nil =>
      rw [List.getLastD_cons]
      constructor
      · exact List.mem_singleton_self x
      · intro y hy
        rw [List.mem_singleton.mp hy]
        exact Or.inr rfl
    | cons z t' =>
      rw [List.getLastD_cons]
      obtain ⟨hmemb, hmax⟩ := ih x (List.Sorted.of_cons hs) (by simp)
      constructor
      · exact List.mem_cons_of_mem x hmemb
      · intro y hy
        rcases List.mem_cons.mp hy with rfl | hy'
        · exact Or.inl (List.rel_of_sorted_cons hs _ hmemb)
        · exact hmax y hy'

/-- Membership in the reduced association list. -/
theorem mem_finallist {nm : Nat → Nat} {repl : List (Nat × List Nat)}
    {e : Nat × List Nat} :
    e ∈ finallist nm repl ↔
      e.1 ∈ finalkeys repl ∧
      e = (e.1, valsort nm ((redstate repl).fm e.1)) := by
  unfold finallist
  rw [List.mem_map]
  constructor
  · rintro ⟨k, hk, rfl⟩
    exact ⟨(Finset.mem_sort (α := Nat) (· ≤ ·)).mp hk, rfl⟩
  · rintro ⟨hk, he⟩
    exact ⟨e.1, (Finset.mem_sort (α := Nat) (· ≤ ·)).mpr hk, he.symm⟩

/-- C4: `processreplacement` computes `newtopmost` by the three cases of
hgext/histedit.py lines 704-713, taken in order: when `new` is non-empty,
the element of `new` with maximal changelog revision; otherwise, when the
reduced mapping is empty, `None`; otherwise the first parent of the
reduced-mapping key with minimal changelog revision. -/
theorem C4_newtopmost (nm p1 : Nat → Nat) (repl : List (Nat × List Nat)) :
    (newset repl ≠ ∅ →
      ∃ n, (processreplacement nm p1 repl).2.2.2 = some n ∧
        n ∈ newset repl ∧ ∀ m ∈ newset repl, nm m ≤ nm n) ∧
    (newset repl = ∅ → (processreplacement nm p1 repl).1 = [] →
      (processreplacement nm p1 repl).2.2.2 = none) ∧
    (newset repl = ∅ → (processreplacement nm p1 repl).1 ≠ [] →
      ∃ k, k ∈ finalkeys repl ∧ (∀ k' ∈ finalkeys repl, nm k ≤ nm k') ∧
        (processreplacement nm p1 repl).2.2.2 = some (p1 k)) := by
  refine ⟨?_, ?_, ?_⟩
  · intro hne
    show ∃ n, newtopmostfn nm p1 repl = some n ∧
      n ∈ newset repl ∧ ∀ m ∈ newset repl, nm m ≤ nm n
    rw [newtopmostfn, if_pos hne]
    refine ⟨(valsort nm (newset repl)).getLastD 0, rfl, ?_, ?_⟩
    · obtain ⟨hmemb, _⟩ := sorted_getLastD_max (valsort nm (newset repl)) 0
        (valsort_sorted nm _) (valsort_ne_nil nm _ hne)
      exact mem_valsort.mp hmemb
    · obtain ⟨_, hmax⟩ := sorted_getLastD_max (valsort nm (newset repl)) 0
        (valsort_sorted nm _) (valsort_ne_nil nm _ hne)
      intro m hm
      rcases hmax m (mem_valsort.mpr hm) with h | h
      · rcases h with h | ⟨h, _⟩
        · exact Nat.le_of_lt h
        · exact Nat.le_of_eq h
      · rw [h]
  · intro hne hfin
    have hfin' : finallist nm repl = [] := hfin
    show newtopmostfn nm p1 repl = none
    rw [newtopmostfn, if_neg (by simp [hne]), if_pos hfin']
  · intro hne hfin
    have hfin' : finallist nm repl ≠ [] := hfin
    have hkeys : finalkeys repl ≠ ∅ := by
      intro h
      apply hfin'
      unfold finallist
      rw [h]
      simp [Finset.sort_empty]
    rcases hv : valsort nm (finalkeys repl) with _ | ⟨x, t⟩
    · exact absurd hv (valsort_ne_nil nm _ hkeys)
    · have hsx : List.Sorted (nmrel nm) (x :: t) := by
        rw [← hv]
        exact valsort_sorted nm _
      refine ⟨x, ?_, ?_, ?_⟩
      · have hxv : x ∈ valsort nm (finalkeys repl) := by
          rw [hv]
          exact List.mem_cons_self x t
        exact mem_valsort.mp hxv
      · intro k' hk'
        have hk'v : k' ∈ x :: t := by
          rw [← hv]
          exact mem_valsort.mpr hk'
        rcases sorted_head_min hsx k' hk'v with h | h
        · rcases h with h | ⟨h, _⟩
          · exact Nat.le_of_lt h
          · exact Nat.le_of_eq h
        · rw [h]
      · show newtopmostfn nm p1 repl = some (p1 x)
        rw [newtopmostfn, if_neg (by simp [hne]), if_neg hfin', hv]
        rfl

/-- Witness for `C4_newtopmost`: on the single replacement `1 ↦ (2,)`,
`new = {2}` is non-empty and `newtopmost` is node 2, its revision-maximal
element. -/
theorem C4_witness :
    ∃ n, (processreplacement id id [(1, [2])]).2.2.2 = some n ∧
      n ∈ newset [(1, [2])] ∧ ∀ m ∈ newset [(1, [2])], id m ≤ id n :=
  (C4_newtopmost id id [(1, [2])]).1 (by decide)

theorem replacedset_maplist (ks : List Nat) (F : Nat → List Nat) :
    replacedset (ks.map (fun k => (k, F k))) = ks.toFinset := by
  unfold replacedset
  rw [List.map_map]
  have hcomp : (Prod.fst ∘ fun k => (k, F k)) = id := rfl
  rw [hcomp, List.map_id]

theorem fullmapping_maplist (F : Nat → List Nat) (ks : List Nat) (k : Nat)
    (hk : k ∈ ks) :
    fullmapping (ks.map (fun j => (j, F j))) k = (F k).toFinset := by
  ext s
  rw [mem_fullmapping, List.mem_toFinset]
  constructor
  · rintro ⟨pr, hpr, h1, h2⟩
    obtain ⟨u, _, rfl⟩ := List.mem_map.mp hpr
    have h1' : u = k := h1
    subst h1'
    exact h2
  · intro hs
    exact ⟨(k, F k), List.mem_map.mpr ⟨k, hk, rfl⟩, rfl, hs⟩

/-- A pass over nodes all of whose successor sets are already terminal
relative to `KK` (covering both pending and finalized nodes) finalizes
each visited node and changes no successor set. -/
theorem onepass_flat (KK : Finset Nat) :
    ∀ (l : List Nat) (st : RedState), l.Nodup →
      (∀ x ∈ l, ∀ s ∈ st.fm x, s ∉ KK) →
      (∀ x ∈ l, x ∈ st.tp) →
      st.tp ⊆ KK → st.fk ⊆ KK →
      onepass l st = ⟨st.fm, st.tp \ l.toFinset, st.fk ∪ l.toFinset⟩ := by
  intro l
  induction l with
  | nil =>
    intro st _ _ _ _ _
    show st = _
    simp only [List.toFinset_nil, Finset.sdiff_empty, Finset.union_empty]
  | cons x t ih =>
    intro st hnd hterm hmem htpK hfkK
    have hx : x ∈ st.tp := hmem x (List.mem_cons_self x t)
    have hskip : procsuccs st.fm st.tp st.fk
        (Finset.sort (· ≤ ·) (st.fm x)) (st.fm x) = (st.fm x, true) := by
      apply procsuccs_skip
      intro s hs
      have hsf : s ∈ st.fm x := (Finset.mem_sort (α := Nat) (· ≤ ·)).mp hs
      have hsK := hterm x (List.mem_cons_self x t) s hsf
      exact ⟨fun hc => hsK (htpK hc), fun hc => hsK (hfkK hc)⟩
    have hstep : redstep st x = ⟨st.fm, st.tp.erase x, insert x st.fk⟩ := by
      unfold redstep
      rw [hskip]
      simp [Function.update_eq_self]
    show onepass t (redstep st x) = _
    rw [hstep]
    have h1 : ∀ y ∈ t,
        ∀ s ∈ (⟨st.fm, st.tp.erase x, insert x st.fk⟩ : RedState).fm y,
          s ∉ KK :=
      fun y hy => hterm y (List.mem_cons_of_mem x hy)
    have h2 : ∀ y ∈ t,
        y ∈ (⟨st.fm, st.tp.erase x, insert x st.fk⟩ : RedState).tp := by
      intro y hy
      exact Finset.mem_erase.mpr
        ⟨fun h => (List.nodup_cons.mp hnd).1 (h ▸ hy),
          hmem y (List.mem_cons_of_mem x hy)⟩
    have h3 : (⟨st.fm, st.tp.erase x, insert x st.fk⟩ : RedState).tp ⊆ KK :=
      fun a ha => htpK (Finset.mem_of_mem_erase ha)
    have h4 : (⟨st.fm, st.tp.erase x, insert x st.fk⟩ : RedState).fk ⊆ KK := by
      intro a ha
      rcases Finset.mem_insert.mp ha with rfl | ha
      · exact htpK hx
      · exact hfkK ha
    rw [ih _ (List.Nodup.of_cons hnd) h1 h2 h3 h4]
    have e1 : (st.tp.erase x) \ t.toFinset = st.tp \ (x :: t).toFinset := by
      ext a
      simp only [Finset.mem_sdiff, Finset.mem_erase, List.toFinset_cons,
        Finset.mem_insert, List.mem_toFinset]
      tauto
    have e2 : (insert x st.fk) ∪ t.toFinset = st.fk ∪ (x :: t).toFinset := by
      ext a
      simp only [Finset.mem_union, Finset.mem_insert, List.toFinset_cons,
        List.mem_toFinset]
      tauto
    rw [e1, e2]

/-- The while-loop does nothing once `toproceed` is empty. -/
theorem redloop_empty : ∀ (fuel : Nat) (st : RedState), st.tp = ∅ →
    redloop fuel st = st := by
  intro fuel st h
  cases fuel with
  | zero => rfl
  | succ m =>
    simp only [redloop]
    rw [if_pos h]

/-- On an input whose `fullmapping` is already terminal everywhere, the
reduction loop finishes in a single pass and changes nothing. -/
theorem redstate_flat (repl' : List (Nat × List Nat))
    (hterm : ∀ x ∈ replacedset repl', ∀ s ∈ fullmapping repl' x,
        s ∉ replacedset repl') :
    redstate repl' = ⟨fullmapping repl', ∅, replacedset repl'⟩ := by
  unfold redstate
  by_cases hemp : replacedset repl' = ∅
  · rw [redloop_empty _ _ hemp, hemp]
  · simp only [redloop]
    rw [if_neg hemp]
    rw [onepass_flat (replacedset repl') _ _ (Finset.sort_nodup _ _)
      (fun x hx => hterm x ((Finset.mem_sort (α := Nat) (· ≤ ·)).mp hx))
      (fun x hx => (Finset.mem_sort (α := Nat) (· ≤ ·)).mp hx)
      (fun a ha => ha) (Finset.empty_subset _)]
    rw [Finset.sort_toFinset, Finset.sdiff_self, Finset.empty_union]
    exact redloop_empty _ _ rfl

/-- Sorting (by the embedding's revision order) the finite set of a list
that is already duplicate-free and sorted gives the list back. -/
theorem valsort_of_sorted (nm : Nat → Nat) (l : List Nat) (hnd : l.Nodup)
    (hs : List.Sorted (nmrel nm) l) : valsort nm l.toFinset = l := by
  refine List.eq_of_perm_of_sorted ?_ (valsort_sorted nm _) hs
  refine (valsort_perm nm _).trans ?_
  exact List.perm_of_nodup_nodup_toFinset_eq (Finset.sort_nodup _ _) hnd
    (by rw [Finset.sort_toFinset])

/-- C3: for every acyclic replacement list (witnessed by a rank function
decreasing along replacement edges), the reduced mapping
`processreplacement` returns has no temp node among its precursors and no
precursor mapping to a successor that is itself a precursor of the
reduced mapping; and running the reduction again on its own output
returns the output unchanged. -/
theorem C3_reduction_idempotent (nm p1 rank : Nat → Nat)
    (repl : List (Nat × List Nat))
    (hrank : ∀ pr ∈ repl, ∀ s ∈ pr.2, rank s < rank pr.1) :
    (∀ e ∈ (processreplacement nm p1 repl).1,
        e.1 ∉ tmpnodesset repl ∧
        ∀ s ∈ e.2, ∀ e' ∈ (processreplacement nm p1 repl).1, s ≠ e'.1) ∧
    (processreplacement nm p1 (processreplacement nm p1 repl).1).1 =
      (processreplacement nm p1 repl).1 := by
  obtain ⟨hemp, hfk, hterm⟩ := redstate_spec repl rank hrank
  have hkeysR : finalkeys repl ⊆ replacedset repl := Finset.sdiff_subset
  have hvals : ∀ k ∈ finalkeys repl, ∀ s ∈ valsort nm ((redstate repl).fm k),
      s ∉ replacedset repl := by
    intro k hk s hs
    exact hterm k (hkeysR hk) s (mem_valsort.mp hs)
  constructor
  · intro e he
    have he' : e ∈ finallist nm repl := he
    obtain ⟨k, hk, rfl⟩ := List.mem_map.mp he'
    have hkK : k ∈ finalkeys repl := (Finset.mem_sort (α := Nat) (· ≤ ·)).mp hk
    constructor
    · exact (Finset.mem_sdiff.mp hkK).2
    · intro s hs e' he2
      have he2' : e' ∈ finallist nm repl := he2
      obtain ⟨k', hk', rfl⟩ := List.mem_map.mp he2'
      have hk'K : k' ∈ finalkeys repl :=
        (Finset.mem_sort (α := Nat) (· ≤ ·)).mp hk'
      intro hske
      have hske' : s = k' := hske
      exact hvals k hkK s hs (hske' ▸ hkeysR hk'K)
  · set F := fun k => valsort nm ((redstate repl).fm k) with hF
    have hout : finallist nm repl =
        (Finset.sort (· ≤ ·) (finalkeys repl)).map (fun k => (k, F k)) := rfl
    have hrep : replacedset (finallist nm repl) = finalkeys repl := by
      rw [hout, replacedset_maplist, Finset.sort_toFinset]
    have hsuccterm : ∀ s ∈ allsuccs (finallist nm repl),
        s ∉ replacedset repl := by
      intro s hs
      obtain ⟨pr, hpr, hspr⟩ := mem_allsuccs.mp hs
      rw [hout] at hpr
      obtain ⟨k, hk, rfl⟩ := List.mem_map.mp hpr
      exact hvals k ((Finset.mem_sort (α := Nat) (· ≤ ·)).mp hk) s hspr
    have htmp : tmpnodesset (finallist nm repl) = ∅ := by
      unfold tmpnodesset
      rw [Finset.eq_empty_iff_forall_not_mem]
      intro s hs
      obtain ⟨h1, h2⟩ := Finset.mem_inter.mp hs
      rw [hrep] at h2
      exact hsuccterm s h1 (hkeysR h2)
    have hfinkeys : finalkeys (finallist nm repl) = finalkeys repl := by
      unfold finalkeys
      rw [htmp, hrep, Finset.sdiff_empty]
      rfl
    have hfull : ∀ k ∈ finalkeys repl,
        fullmapping (finallist nm repl) k = (F k).toFinset := by
      intro k hk
      rw [hout]
      exact fullmapping_maplist F _ k
        ((Finset.mem_sort (α := Nat) (· ≤ ·)).mpr hk)
    have hstate : redstate (finallist nm repl) =
        ⟨fullmapping (finallist nm repl), ∅,
          replacedset (finallist nm repl)⟩ := by
      apply redstate_flat
      intro x hx s hs
      rw [hrep] at hx
      rw [hfull x hx] at hs
      rw [hrep]
      intro hsK
      exact hvals x hx s (List.mem_toFinset.mp hs) (hkeysR hsK)
    have hstatefm : (redstate (finallist nm repl)).fm =
        fullmapping (finallist nm repl) := by
      rw [hstate]
    show (Finset.sort (· ≤ ·) (finalkeys (finallist nm repl))).map
        (fun k => (k, valsort nm ((redstate (finallist nm repl)).fm k))) =
      finallist nm repl
    rw [hfinkeys, hstatefm]
    conv_rhs => rw [hout]
    apply List.map_congr_left
    intro k hk
    have hkK : k ∈ finalkeys repl := (Finset.mem_sort (α := Nat) (· ≤ ·)).mp hk
    rw [hfull k hkK,
      valsort_of_sorted nm (F k) (valsort_nodup nm _) (valsort_sorted nm _)]

/-- Witness for `C3_reduction_idempotent` at the single replacement
`1 ↦ (2,)` with the rank `x ↦ 10 - x`. -/
theorem C3_witness :
    (∀ e ∈ (processreplacement id id [(1, [2])]).1,
        e.1 ∉ tmpnodesset [(1, [2])] ∧
        ∀ s ∈ e.2, ∀ e' ∈ (processreplacement id id [(1, [2])]).1,
          s ≠ e'.1) ∧
    (processreplacement id id (processreplacement id id [(1, [2])]).1).1 =
      (processreplacement id id [(1, [2])]).1 :=
  C3_reduction_idempotent id id (fun x => 10 - x) [(1, [2])] (by decide)

end Spec2Proof
